import Mathlib

/-!
Verification of the prompt-stream application (`src/app.py`).

The file shallowly embeds the data model and the operations of the
application: the Python string helpers used by `clean_row`, the seeding
loop that runs at module load, the sidebar CRUD handlers, the prompt
renderer and the archiver.  Python dictionaries are modelled as
association lists with insert-overwrite semantics, the SQLite-backed
template table as a list of records, and the relevant parts of the file
system (the output directory, the uploaded data file and the zip
archive) as an explicit state record.  Timestamp columns are omitted:
no verified property mentions them.
-/

namespace PromptStream

/-! ### Python string primitives -/

/-- Characters accepted by Python's `str.strip()` with no argument
(the characters for which `str.isspace()` holds). -/
def isPySpace (c : Char) : Bool :=
  [' ', '\t', '\n', '\r', '\x0B', '\x0C',
   '\x1C', '\x1D', '\x1E', '\x1F', '\x85', '\xA0',
   ' ', ' ', ' ', ' ', ' ', ' ',
   ' ', ' ', ' ', ' ', ' ', ' ',
   ' ', ' ', ' ', ' ', '　'].contains c

/-- Model of Python `s.strip()`: removes leading and trailing whitespace. -/
def pyStrip (s : String) : String :=
  String.mk (((s.data.dropWhile isPySpace).reverse.dropWhile isPySpace).reverse)

/-- The byte-order-mark character `U+FEFF`. -/
def bomChar : Char := '﻿'

/-- Model of Python `s.replace('﻿', '')`: removing every occurrence
of a single character is filtering it out. -/
def removeBom (s : String) : String :=
  String.mk (s.data.filter (fun c => !(c == bomChar)))

/-! ### Python dictionaries as association lists

A Python `dict` built by successive insertions keeps the position of the
first occurrence of a key and overwrites its value; a fresh key is
appended at the end. -/

/-- Insertion into an association list with Python `dict` semantics:
overwrite the value stored under an existing key, append a fresh key. -/
def dictInsert {α β : Type} [DecidableEq α]
    (d : List (α × β)) (k : α) (v : β) : List (α × β) :=
  if d.any (fun p => p.1 = k) then
    d.map (fun p => if p.1 = k then (p.1, v) else p)
  else d ++ [(k, v)]

/-- Lookup in an association list (Python `dict` access; keys of a dict
built by `dictInsert` are distinct, so the first hit is the only one). -/
def dictFind {α β : Type} [DecidableEq α]
    (d : List (α × β)) (k : α) : Option β :=
  (d.find? (fun p => p.1 = k)).map (fun p => p.2)

/-! ### The row sanitizer `clean_row` (src/app.py line 54) -/

/-- Values (and keys) that can appear in a record produced by
`csv.DictReader`: a string, Python `None` (missing field padding /
the rest key), or a list of strings (overflow fields). -/
inductive PyVal where
  | str (s : String)
  | pyNone
  | strList (l : List String)
  deriving DecidableEq, Repr

/-- Key transformation of `clean_row`: `k.strip().replace('﻿', '')` —
strip first, then delete byte-order marks. -/
def cleanKey (s : String) : String := removeBom (pyStrip s)

/-- Value transformation of `clean_row`:
`v.strip() if isinstance(v, str) else ''`. -/
def cleanVal (v : PyVal) : String :=
  match v with
  | .str s => pyStrip s
  | _ => ""

/-- One step of the dict comprehension of `clean_row`: a string key is
cleaned and inserted with its cleaned value, any other key is skipped. -/
def cleanStep (d : List (String × String)) (kv : PyVal × PyVal) :
    List (String × String) :=
  match kv.1 with
  | .str s => dictInsert d (cleanKey s) (cleanVal kv.2)
  | _ => d

/-- Model of `clean_row` (src/app.py line 54): the dict comprehension
`{k.strip().replace('﻿', ''): v.strip() if isinstance(v, str) else ''
for k, v in row.items() if isinstance(k, str)}`. -/
def clean_row (row : List (PyVal × PyVal)) : List (String × String) :=
  row.foldl cleanStep []

example : pyStrip " Alice " = "Alice" := by decide
example : cleanKey " Name﻿ " = "Name" := by decide
example : clean_row [(.str " Name﻿ ", .str " Alice ")] = [("Name", "Alice")] := by decide
example : cleanKey "﻿ Name" = " Name" := by decide

/-! ### The uploaded data file and `csv.DictReader`

The renderer reads the uploaded delimited file through
`csv.DictReader` (src/app.py lines 58-61).  The file is modelled by its
parsed form: the header row and the list of data rows, each a list of
string fields.  `DictReader` turns a data row into a record by the
semantics of its `__next__`: `dict(zip(fieldnames, row))`, then missing
fields are padded with `restval` (`None` by default) and overflow
fields are collected in a list under the `restkey` key (`None` by
default). -/

structure CsvFile where
  header : List String
  rows : List (List String)
  deriving DecidableEq, Repr

/-- Record produced by `csv.DictReader` for one data row. -/
def dictReaderRecord (header row : List String) : List (PyVal × PyVal) :=
  let base := ((List.zip header row).map
    (fun p => ((PyVal.str p.1, PyVal.str p.2) : PyVal × PyVal))).foldl
    (fun d kv => dictInsert d kv.1 kv.2) []
  if row.length < header.length then
    (header.drop row.length).foldl (fun d h => dictInsert d (PyVal.str h) PyVal.pyNone) base
  else if header.length < row.length then
    dictInsert base PyVal.pyNone (PyVal.strList (row.drop header.length))
  else base

/-! ### The substitution engine

The app calls `jinja2.Template(template_str).render(**clean)`
(src/app.py lines 63-64).  Of the engine only the behavior the app
relies on is modelled: `\x7b\x7b expr \x7d\x7d` placeholders whose
expression is a bare variable name; the name is looked up among the
keyword arguments and an undefined name renders as the empty string
(the default `Undefined` of jinja2).  Text outside placeholders is
copied verbatim.  The recursion is fueled by the length of the input,
which one character per step makes sufficient. -/

/-- Splits a character list at the first closing `\x7d\x7d`, returning
the characters before it and the characters after it. -/
def splitAtClose : List Char → Option (List Char × List Char)
  | '}' :: '}' :: rest => some ([], rest)
  | c :: rest => (splitAtClose rest).map (fun p => (c :: p.1, p.2))
  | [] => none

/-- One pass of placeholder substitution (fueled). -/
def renderFuel (d : List (String × String)) : Nat → List Char → List Char
  | 0, l => l
  | _ + 1, [] => []
  | fuel + 1, '{' :: '{' :: rest =>
    match splitAtClose rest with
    | some (inside, after) =>
      ((dictFind d (pyStrip (String.mk inside))).getD "").data ++ renderFuel d fuel after
    | none => '{' :: '{' :: rest
  | fuel + 1, c :: rest => c :: renderFuel d fuel rest

/-- Model of `Template(template_str).render(**ctx)` restricted to the
variable-substitution subset the application uses. -/
def jinjaRender (templateStr : String) (ctx : List (String × String)) : String :=
  String.mk (renderFuel ctx templateStr.data.length templateStr.data)

example :
    jinjaRender "Hello {{ Name }}, you are {{ Age }}"
      [("Name", "Alice"), ("Age", "30")] = "Hello Alice, you are 30" := by decide

/-! ### Decimal formatting for the sequential file names

`render_prompts` names its output files with the f-string
`f"prompt_\x7bidx\x7d.txt"` (src/app.py line 65); the interpolation of a
natural number is its decimal numeral.  The digits are produced by the
usual divide-by-ten recursion, fueled by the number itself. -/

/-- Decimal digits of `n`, most significant first (fueled; empty for 0). -/
def decDigits : Nat → Nat → List Nat
  | 0, _ => []
  | _ + 1, 0 => []
  | fuel + 1, n + 1 => decDigits fuel ((n + 1) / 10) ++ [(n + 1) % 10]

/-- The character of one decimal digit. -/
def digitChar (d : Nat) : Char := Char.ofNat (48 + d)

/-- Decimal numeral of a natural number. -/
def decimalStr (n : Nat) : String :=
  if n = 0 then "0" else String.mk ((decDigits n n).map digitChar)

/-- Output file name of row `idx`: `f"prompt_\x7bidx\x7d.txt"`. -/
def promptName (idx : Nat) : String := "prompt_" ++ decimalStr idx ++ ".txt"

example : promptName 1 = "prompt_1.txt" := by decide
example : promptName 12 = "prompt_12.txt" := by decide

/-! ### The renderer `render_prompts` and the archiver `zip_output`

The output directory is flat: the renderer only ever writes plain
files directly into it, so its content is modelled as an association
list from bare file name to file text.  Writing with `open(path, 'w')`
creates or truncates, i.e. inserts or overwrites. -/

/-- Loop body of `render_prompts` (src/app.py lines 61-69): for each
row, sanitize, substitute, write `prompt_<idx>.txt`, and accumulate the
`(filename, result)` pair.  `enumerate(reader, start=1)` starts `idx`
at 1. -/
def renderGo (templateStr : String) (header : List String) :
    Nat → List (List String) → List (String × String) →
    List (String × String) × List (String × String)
  | _, [], out => ([], out)
  | idx, row :: rows, out =>
    let result := jinjaRender templateStr (clean_row (dictReaderRecord header row))
    let filename := promptName idx
    let rest := renderGo templateStr header (idx + 1) rows (dictInsert out filename result)
    ((filename, result) :: rest.1, rest.2)

/-- Model of `render_prompts` (src/app.py lines 57-70): returns the
list of `(filename, text)` pairs and the new content of the output
directory. -/
def render_prompts (templateStr : String) (csv : CsvFile)
    (outDir : List (String × String)) :
    List (String × String) × List (String × String) :=
  renderGo templateStr csv.header 1 csv.rows outDir

/-! ### Application file-system state -/

/-- The parts of the process state that the generation workflow
touches: the output directory listing, the staged uploaded file, the
archive at the fixed zip path, and the session-scoped preview results. -/
structure AppState where
  outDir : List (String × String)
  uploadedCsv : Option CsvFile
  zipArchive : Option (List (String × String))
  results : Option (List (String × String))
  deriving DecidableEq, Repr

/-- Model of `zip_output` (src/app.py lines 72-76): writes a fresh
archive whose entries are every file of the output directory under its
bare name (`arcname=file`), replacing whatever archive existed at the
fixed path. -/
def zip_output (st : AppState) : AppState :=
  { st with zipArchive := some (st.outDir.map (fun f => (f.1, f.2))) }

/-- Model of the Generate Prompts button handler (src/app.py lines
128-139): `shutil.rmtree` plus `os.makedirs` empty the output
directory, the uploaded file is staged at the fixed path, the renderer
runs over the cleared directory, the results are stored in session
state, and the archiver runs. -/
def generate (st : AppState) (templateStr : String) (csv : CsvFile) : AppState :=
  let cleared : List (String × String) := []
  let rendered := render_prompts templateStr csv cleared
  zip_output
    { st with
        outDir := rendered.2
        uploadedCsv := some csv
        results := some rendered.1 }

example :
    (generate ⟨[("stale.txt", "old")], none, none, none⟩
      "Hello {{ Name }}, you are {{ Age }}"
      ⟨["Name", "Age"], [["Alice", "30"]]⟩).outDir
    = [("prompt_1.txt", "Hello Alice, you are 30")] := by decide

/-! ### The template store

One row of the `templates` table (src/app.py lines 16-22).  The
`created_at` and `updated_at` columns are omitted; no verified
property mentions them.  The `name` column carries a SQL `UNIQUE`
constraint. -/

structure PromptTemplate where
  name : String
  content : String
  deriving DecidableEq, Repr

/-- The names stored in a template list. -/
def storeNames (store : List PromptTemplate) : List String :=
  store.map (fun t => t.name)

/-- Replace the content of the first template called `n`
(`session.query(...).filter_by(name=n).first()` followed by an
assignment to its `content`). -/
def updateFirst : List PromptTemplate → String → String → List PromptTemplate
  | [], _, _ => []
  | t :: ts, n, c =>
    if t.name = n then { t with content := c } :: ts else t :: updateFirst ts n c

/-- Remove the first template called `n` (`session.delete` of the
record returned by `.first()`). -/
def removeFirst : List PromptTemplate → String → List PromptTemplate
  | [], _ => []
  | t :: ts, n => if t.name = n then ts else t :: removeFirst ts n

/-- First template called `n`: `filter_by(name=n).first()`. -/
def findByName : List PromptTemplate → String → Option PromptTemplate
  | [], _ => none
  | t :: ts, n => if t.name = n then some t else findByName ts n

/-! ### The seeding loop (src/app.py lines 38-51)

The seed directory is modelled by its listing: pairs of file name and
UTF-8 file content. -/

/-- Model of `f.endswith(".txt")`. -/
def endsWithTxt (f : String) : Bool := f.data.reverse.take 4 = ['t', 'x', 't', '.']

/-- Whether a character list begins with `.txt` (the test performed at
each position by the left-to-right scan of `replace`). -/
def startsWithTxt (l : List Char) : Bool := l.take 4 = ['.', 't', 'x', 't']

/-- Model of Python `file.replace(".txt", "")` on the character list:
delete every (left-to-right, non-overlapping) occurrence of `.txt`.
The scan is fueled by the length of the list; a matching position
consumes four characters, any other position one. -/
def stripTxtF : Nat → List Char → List Char
  | 0, l => l
  | _ + 1, [] => []
  | fuel + 1, c :: rest =>
    if startsWithTxt (c :: rest) then stripTxtF fuel (rest.drop 3)
    else c :: stripTxtF fuel rest

/-- Deletion of every occurrence of `.txt` (with just enough fuel). -/
def stripTxt (l : List Char) : List Char := stripTxtF l.length l

/-- Template name derived from a seed file name (src/app.py line 42):
`name = file.replace(".txt", "")`. -/
def seedName (file : String) : String := String.mk (stripTxt file.data)

/-- Whether `.txt` occurs anywhere in a character list. -/
def hasTxtOcc : List Char → Bool
  | [] => false
  | l@(_ :: rest) => startsWithTxt l || hasTxtOcc rest

/-- The files the seeding loop visits (src/app.py line 40):
`[f for f in os.listdir(TEMPLATE_DIR) if f.endswith(".txt")]`. -/
def seedFiles (dir : List (String × String)) : List (String × String) :=
  dir.filter (fun f => endsWithTxt f.1)

/-- Body of the seeding loop for one file (src/app.py lines 41-50):
`existing` is the name set captured once before the loop; a known name
has its first record's content overwritten, an unknown name is
appended as a new record. -/
def upsertSeed (existing : List String) (store : List PromptTemplate)
    (f : String × String) : List PromptTemplate :=
  let n := seedName f.1
  if n ∈ existing then updateFirst store n f.2
  else store ++ [{ name := n, content := f.2 }]

/-- The whole seeding pass (src/app.py lines 38-51): the existing
names are queried once, then every `.txt` file of the template
directory is upserted in listing order. -/
def seed (store : List PromptTemplate) (dir : List (String × String)) :
    List PromptTemplate :=
  (seedFiles dir).foldl (upsertSeed (storeNames store)) store

/-- Error of the storage layer: the `UNIQUE` constraint on `name`
(src/app.py line 19) makes `session.commit()` raise `IntegrityError`
when the pending rows would duplicate a name. -/
inductive DBErr where
  | integrityError
  deriving DecidableEq, Repr

/-- Computable check that a name list has no duplicate (the `UNIQUE`
constraint check the database performs at commit). -/
def namesNodupB : List String → Bool
  | [] => true
  | n :: ns => (decide (n ∉ ns)) && namesNodupB ns

/-- Seeding followed by `session.commit()` (src/app.py line 51): the
commit persists the new table only when the unique-name constraint
holds, and otherwise fails leaving the stored table unchanged. -/
def seedCommit (store : List PromptTemplate) (dir : List (String × String)) :
    Except DBErr (List PromptTemplate) :=
  let s := seed store dir
  if namesNodupB (storeNames s) then .ok s else .error .integrityError

example : seedName "welcome.txt" = "welcome" := by decide
example : seedName "a.txtb.txt" = "ab" := by decide
example : seed [⟨"a", "old"⟩] [("a.txt", "new"), ("b.md", "x")]
    = [⟨"a", "new"⟩] := by decide

/-! ### The sidebar CRUD handlers (src/app.py lines 86-118) -/

/-- Messages the sidebar can show.  `errorNotFound` is vocabulary for
the specification's `NotFoundError`; no handler of the source produces
it.  `noAction` is the absence of any message. -/
inductive UIMsg where
  | errorTemplateExists
  | errorNotFound
  | savedOk
  | updatedOk
  | deletedOk
  | noAction
  deriving DecidableEq, Repr

/-- An uncaught Python exception (a crash of the script run). -/
inductive PyExn where
  | attributeErr
  deriving DecidableEq, Repr

/-- Model of the Create mode handler (src/app.py lines 86-96): the
`Save Template` click acts only when both text fields are non-empty
(Python truthiness of `new_name and new_content`); an existing name is
reported with `st.sidebar.error` and nothing is stored, otherwise the
new template is added and committed. -/
def createMode (store : List PromptTemplate) (newName newContent : String) :
    List PromptTemplate × UIMsg :=
  if newName ≠ "" ∧ newContent ≠ "" then
    if (findByName store newName).isSome then (store, .errorTemplateExists)
    else (store ++ [{ name := newName, content := newContent }], .savedOk)
  else (store, .noAction)

/-- Model of the Edit mode handler (src/app.py lines 98-107): `choice`
is the selectbox value (`none` when the store is empty, since the
option list is the stored names).  The handler dereferences
`selected_tpl.content` to prefill the text area; when the lookup found
nothing that is an uncaught `AttributeError` on `None`.  Otherwise the
`Update Template` click overwrites the chosen record's content. -/
def editMode (store : List PromptTemplate) (choice : Option String)
    (editedContent : String) : Except PyExn (List PromptTemplate × UIMsg) :=
  match choice with
  | none => .error .attributeErr
  | some n =>
    match findByName store n with
    | none => .error .attributeErr
    | some _ => .ok (updateFirst store n editedContent, .updatedOk)

/-- Model of the Delete mode handler (src/app.py lines 109-118): the
`Delete Template` click re-queries the chosen name; a found record is
deleted and reported, otherwise nothing at all happens. -/
def deleteMode (store : List PromptTemplate) (choice : Option String) :
    List PromptTemplate × UIMsg :=
  match choice.bind (fun n => findByName store n) with
  | some t => (removeFirst store t.name, .deletedOk)
  | none => (store, .noAction)

example : createMode [⟨"a", "x"⟩] "a" "y" = ([⟨"a", "x"⟩], .errorTemplateExists) := by decide
example : editMode [] none "y" = .error .attributeErr := rfl
example : deleteMode [] none = ([], .noAction) := by decide
example : deleteMode [⟨"a", "x"⟩, ⟨"b", "y"⟩] (some "a") = ([⟨"b", "y"⟩], .deletedOk) := by decide

/-! ## Helper lemmas -/

theorem findByName_isSome_iff (store : List PromptTemplate) (n : String) :
    (findByName store n).isSome ↔ n ∈ storeNames store := by
  induction store with
  | nil => simp [findByName, storeNames]
  | cons t ts ih =>
    by_cases h : t.name = n
    · simp [findByName, storeNames, h]
    · simp [findByName, storeNames, h, Ne.symm h] at ih ⊢
      exact ih

theorem mem_dictInsert {α β : Type} [DecidableEq α] (d : List (α × β)) (k : α) (v : β)
    (p : α × β) (hp : p ∈ dictInsert d k v) : p ∈ d ∨ p = (k, v) := by
  unfold dictInsert at hp
  split at hp
  · rcases List.mem_map.mp hp with ⟨q, hq, hOf⟩
    by_cases h : q.1 = k
    · right
      rw [← hOf]
      simp [h]
    · left
      rw [← hOf]
      simp [h]
      exact hq
  · rcases List.mem_append.mp hp with h | h
    · exact Or.inl h
    · right
      simpa using h

theorem mem_keys_dictInsert_self {α β : Type} [DecidableEq α]
    (d : List (α × β)) (k : α) (v : β) :
    k ∈ (dictInsert d k v).map Prod.fst := by
  unfold dictInsert
  split
  · rename_i h
    rcases List.any_eq_true.mp h with ⟨q, hq, hqk⟩
    have hk : q.1 = k := by simpa using hqk
    refine List.mem_map.mpr ⟨(q.1, v), ?_, hk⟩
    have : (if q.1 = k then (q.1, v) else q) = (q.1, v) := by simp [hk]
    exact this ▸ List.mem_map_of_mem _ hq
  · simp

theorem mem_keys_dictInsert_mono {α β : Type} [DecidableEq α]
    (d : List (α × β)) (k : α) (v : β) (a : α)
    (ha : a ∈ d.map Prod.fst) : a ∈ (dictInsert d k v).map Prod.fst := by
  unfold dictInsert
  split
  · rcases List.mem_map.mp ha with ⟨q, hq, rfl⟩
    refine List.mem_map.mpr ⟨if q.1 = k then (q.1, v) else q, List.mem_map_of_mem _ hq, ?_⟩
    by_cases h : q.1 = k <;> simp [h]
  · rcases List.mem_map.mp ha with ⟨q, hq, rfl⟩
    exact List.mem_map.mpr ⟨q, List.mem_append_left _ hq, rfl⟩

theorem foldl_cleanStep_sound (row : List (PyVal × PyVal)) :
    ∀ (acc : List (String × String)) (kv : String × String),
      kv ∈ row.foldl cleanStep acc →
      kv ∈ acc ∨ ∃ s v', (PyVal.str s, v') ∈ row ∧ kv = (cleanKey s, cleanVal v') := by
  induction row with
  | nil =>
    intro acc kv h
    exact Or.inl h
  | cons e rest ih =>
    intro acc kv h
    rcases ih (cleanStep acc e) kv h with h' | ⟨s, v', hm, he⟩
    · unfold cleanStep at h'
      split at h'
      · rename_i s heq
        rcases mem_dictInsert _ _ _ _ h' with hacc | hkv
        · exact Or.inl hacc
        · refine Or.inr ⟨s, e.2, ?_, hkv⟩
          have he2 : (PyVal.str s, e.2) = e := by
            rw [← heq]
          exact he2 ▸ List.mem_cons_self e rest
      · exact Or.inl h'
    · exact Or.inr ⟨s, v', List.mem_cons_of_mem _ hm, he⟩

theorem foldl_cleanStep_keys (row : List (PyVal × PyVal)) :
    ∀ (acc : List (String × String)) (a : String),
      a ∈ acc.map Prod.fst → a ∈ (row.foldl cleanStep acc).map Prod.fst := by
  induction row with
  | nil =>
    intro acc a ha
    exact ha
  | cons e rest ih =>
    intro acc a ha
    refine ih (cleanStep acc e) a ?_
    unfold cleanStep
    split
    · exact mem_keys_dictInsert_mono _ _ _ _ ha
    · exact ha

theorem clean_row_complete (row : List (PyVal × PyVal)) :
    ∀ (acc : List (String × String)) (s : String) (v₀ : PyVal),
      (PyVal.str s, v₀) ∈ row →
      cleanKey s ∈ (row.foldl cleanStep acc).map Prod.fst := by
  induction row with
  | nil =>
    intro _ _ _ h
    cases h
  | cons e rest ih =>
    intro acc s v₀ h
    rcases List.mem_cons.mp h with rfl | hrest
    · refine foldl_cleanStep_keys rest (cleanStep acc (PyVal.str s, v₀)) _ ?_
      unfold cleanStep
      exact mem_keys_dictInsert_self _ _ _
    · exact ih (cleanStep acc e) s v₀ hrest

theorem stripTxtF_append_ext (fuel : Nat) (l : List Char)
    (hfuel : (l ++ ['.', 't', 'x', 't']).length ≤ fuel)
    (h : hasTxtOcc l = false) :
    stripTxtF fuel (l ++ ['.', 't', 'x', 't']) = l := by
  induction l generalizing fuel with
  | nil =>
    match fuel, hfuel with
    | f + 4, _ => rfl
  | cons c rest ih =>
    have h1 : startsWithTxt (c :: rest) = false := by
      unfold hasTxtOcc at h
      exact (Bool.or_eq_false_iff.mp h).1
    have h2 : hasTxtOcc rest = false := by
      unfold hasTxtOcc at h
      exact (Bool.or_eq_false_iff.mp h).2
    have h3 : startsWithTxt ((c :: rest) ++ ['.', 't', 'x', 't']) = false := by
      rcases rest with _ | ⟨a, _ | ⟨b, _ | ⟨d, rest'⟩⟩⟩
      · simp [startsWithTxt]
      · simp [startsWithTxt]
      · simp [startsWithTxt]
      · simp only [startsWithTxt, List.cons_append, List.take_succ_cons,
          List.take_zero] at h1 ⊢
        exact h1
    match fuel, hfuel with
    | f + 1, hfuel =>
      rw [List.cons_append] at h3 ⊢
      show (if startsWithTxt (c :: (rest ++ ['.', 't', 'x', 't'])) then _ else _) = _
      rw [if_neg (by simp [h3])]
      have : (rest ++ ['.', 't', 'x', 't']).length ≤ f := by
        simpa using Nat.le_of_succ_le_succ hfuel
      rw [ih f this h2]

theorem stripTxt_append_ext (l : List Char) (h : hasTxtOcc l = false) :
    stripTxt (l ++ ['.', 't', 'x', 't']) = l :=
  stripTxtF_append_ext _ _ (Nat.le_refl _) h

theorem namesNodupB_iff (l : List String) : namesNodupB l = true ↔ l.Nodup := by
  induction l with
  | nil => simp [namesNodupB]
  | cons n ns ih =>
    simp [namesNodupB, List.nodup_cons, ih]

/-- Number of occurrences of a name in a name list. -/
def countName : List String → String → Nat
  | [], _ => 0
  | m :: l, n => (if m = n then 1 else 0) + countName l n

theorem countName_append (l1 l2 : List String) (n : String) :
    countName (l1 ++ l2) n = countName l1 n + countName l2 n := by
  induction l1 with
  | nil => simp [countName]
  | cons m l1 ih =>
    simp only [List.cons_append, countName, List.append_eq]
    rw [ih]
    omega

theorem countName_eq_zero (l : List String) (n : String) :
    countName l n = 0 ↔ n ∉ l := by
  induction l with
  | nil => simp [countName]
  | cons m l ih =>
    by_cases h : m = n
    · subst h
      simp [countName]
    · have hnm : ¬n = m := fun he => h he.symm
      simp [countName, h, ih, hnm]

theorem nodup_iff_countName (l : List String) :
    l.Nodup ↔ ∀ n, countName l n ≤ 1 := by
  induction l with
  | nil => simp [countName]
  | cons m l ih =>
    constructor
    · intro hnd n
      rcases List.nodup_cons.mp hnd with ⟨hm, hl⟩
      by_cases h : m = n
      · subst h
        have h0 : countName l m = 0 := (countName_eq_zero _ _).mpr hm
        simp [countName, h0]
      · have := (ih.mp hl) n
        simp [countName, h]
        omega
    · intro h
      refine List.nodup_cons.mpr ⟨?_, ih.mpr (fun n => ?_)⟩
      · intro hmem
        have h1 := h m
        have h0 : countName l m ≠ 0 := fun hz => ((countName_eq_zero _ _).mp hz) hmem
        simp [countName] at h1
        omega
      · have h1 := h n
        by_cases hm : m = n <;> simp [countName, hm] at h1 <;> omega

theorem countName_eq_one_of_nodup (l : List String) (n : String)
    (h : l.Nodup) (hm : n ∈ l) : countName l n = 1 := by
  have h1 := (nodup_iff_countName l).mp h n
  have h2 : countName l n ≠ 0 := fun h0 => ((countName_eq_zero l n).mp h0) hm
  omega

theorem storeNames_updateFirst (s : List PromptTemplate) (n c : String) :
    storeNames (updateFirst s n c) = storeNames s := by
  induction s with
  | nil => rfl
  | cons t ts ih =>
    by_cases h : t.name = n
    · simp [updateFirst, h, storeNames]
    · simp [updateFirst, h, storeNames] at ih ⊢
      exact ih

theorem storeNames_upsertSeed (ex : List String) (s : List PromptTemplate)
    (f : String × String) :
    storeNames (upsertSeed ex s f) =
      if seedName f.1 ∈ ex then storeNames s else storeNames s ++ [seedName f.1] := by
  unfold upsertSeed
  by_cases h : seedName f.1 ∈ ex
  · simp [h, storeNames_updateFirst]
  · simp [h, storeNames]

theorem countName_seedFold (ex : List String) (fs : List (String × String)) :
    ∀ (s : List PromptTemplate) (n : String),
    countName (storeNames (fs.foldl (upsertSeed ex) s)) n =
      countName (storeNames s) n +
        if n ∈ ex then 0 else countName (fs.map (fun f => seedName f.1)) n := by
  induction fs with
  | nil =>
    intro s n
    by_cases h : n ∈ ex <;> simp [h, countName]
  | cons f fs ih =>
    intro s n
    rw [List.foldl_cons, ih, storeNames_upsertSeed, List.map_cons]
    by_cases hex : n ∈ ex
    · rw [if_pos hex, if_pos hex]
      by_cases hf : seedName f.1 ∈ ex
      · rw [if_pos hf]
      · rw [if_neg hf, countName_append]
        have hne : ¬(seedName f.1 = n) := fun he => hf (he ▸ hex)
        simp [countName, hne]
    · rw [if_neg hex, if_neg hex]
      by_cases hf : seedName f.1 ∈ ex
      · rw [if_pos hf]
        have hne : ¬(seedName f.1 = n) := fun he => hex (he ▸ hf)
        simp only [countName, if_neg hne]
        omega
      · rw [if_neg hf, countName_append]
        simp only [countName]
        omega

theorem countName_storeNames_filter (s : List PromptTemplate) (n : String) :
    countName (storeNames s) n = (s.filter (fun t => t.name = n)).length := by
  induction s with
  | nil => rfl
  | cons t ts ih =>
    by_cases h : t.name = n
    · rw [List.filter_cons_of_pos (by simpa using h)]
      show (if t.name = n then 1 else 0) + countName (storeNames ts) n = _
      rw [if_pos h, ih, List.length_cons]
      omega
    · rw [List.filter_cons_of_neg (by simpa using h)]
      show (if t.name = n then 1 else 0) + countName (storeNames ts) n = _
      rw [if_neg h, ih]
      omega

/-- Content stored under a name (through the `first()` lookup). -/
def getContent (s : List PromptTemplate) (n : String) : Option String :=
  (findByName s n).map (fun t => t.content)

theorem findByName_some (s : List PromptTemplate) (n : String) (t : PromptTemplate)
    (h : findByName s n = some t) : t ∈ s ∧ t.name = n := by
  induction s with
  | nil => cases h
  | cons u us ih =>
    unfold findByName at h
    by_cases hu : u.name = n
    · rw [if_pos hu] at h
      cases h
      exact ⟨List.mem_cons_self _ _, hu⟩
    · rw [if_neg hu] at h
      rcases ih h with ⟨hm, hn⟩
      exact ⟨List.mem_cons_of_mem _ hm, hn⟩

theorem getContent_updateFirst_self (s : List PromptTemplate) (n c : String)
    (h : n ∈ storeNames s) : getContent (updateFirst s n c) n = some c := by
  induction s with
  | nil => cases h
  | cons t ts ih =>
    by_cases ht : t.name = n
    · simp [updateFirst, ht, getContent, findByName]
    · rcases List.mem_cons.mp h with h' | h'
      · exact absurd h'.symm ht
      · simp only [updateFirst, if_neg ht]
        simp only [getContent, findByName, if_neg ht] at ih ⊢
        exact ih h'

theorem getContent_updateFirst_ne (s : List PromptTemplate) (m c n : String)
    (h : m ≠ n) : getContent (updateFirst s m c) n = getContent s n := by
  induction s with
  | nil => rfl
  | cons t ts ih =>
    by_cases ht : t.name = m
    · have htn : ¬(t.name = n) := fun he => h (ht ▸ he)
      simp only [updateFirst, if_pos ht, getContent, findByName]
      rw [if_neg htn, if_neg htn]
    · simp only [updateFirst, if_neg ht]
      by_cases htn : t.name = n
      · simp only [getContent, findByName, if_pos htn]
      · simp only [getContent, findByName, if_neg htn]
        exact ih

theorem getContent_append_ne (s : List PromptTemplate) (u : PromptTemplate)
    (n : String) (h : u.name ≠ n) : getContent (s ++ [u]) n = getContent s n := by
  induction s with
  | nil => simp [getContent, findByName, h]
  | cons t ts ih =>
    by_cases ht : t.name = n
    · simp [getContent, findByName, ht]
    · simp only [List.cons_append]
      simp only [getContent, findByName, if_neg ht] at ih ⊢
      exact ih

theorem getContent_append_self (s : List PromptTemplate) (u : PromptTemplate)
    (n : String) (hs : n ∉ storeNames s) (hu : u.name = n) :
    getContent (s ++ [u]) n = some u.content := by
  induction s with
  | nil => simp [getContent, findByName, hu]
  | cons t ts ih =>
    have ht : ¬(t.name = n) := by
      intro he
      exact hs (he ▸ List.mem_cons_self _ _)
    simp only [List.cons_append, getContent, findByName, if_neg ht]
    exact ih (fun hm => hs (List.mem_cons_of_mem _ hm))

theorem getContent_seedFold_ne (ex : List String) (fs : List (String × String))
    (n : String) : ∀ (s : List PromptTemplate), (∀ f ∈ fs, seedName f.1 ≠ n) →
    getContent (fs.foldl (upsertSeed ex) s) n = getContent s n := by
  induction fs with
  | nil =>
    intro s _
    rfl
  | cons f fs ih =>
    intro s h
    rw [List.foldl_cons, ih _ (fun g hg => h g (List.mem_cons_of_mem _ hg))]
    have hf : seedName f.1 ≠ n := h f (List.mem_cons_self _ _)
    unfold upsertSeed
    by_cases hm : seedName f.1 ∈ ex
    · rw [if_pos hm]
      exact getContent_updateFirst_ne s _ f.2 n hf
    · rw [if_neg hm]
      exact getContent_append_ne s _ n hf

theorem getContent_seedFold (ex : List String) (fs : List (String × String))
    (f : String × String) :
    ∀ (s : List PromptTemplate),
    ((fs.map (fun g => seedName g.1)).Nodup) →
    f ∈ fs →
    (∀ g ∈ fs, seedName g.1 ∉ ex → seedName g.1 ∉ storeNames s) →
    ex ⊆ storeNames s →
    getContent (fs.foldl (upsertSeed ex) s) (seedName f.1) = some f.2 := by
  induction fs with
  | nil =>
    intro s _ hf _ _
    cases hf
  | cons g gs ih =>
    intro s hnd hf hnew hsub
    rw [List.foldl_cons]
    have hgnames : storeNames (upsertSeed ex s g) = storeNames s ∨
        storeNames (upsertSeed ex s g) = storeNames s ++ [seedName g.1] := by
      rw [storeNames_upsertSeed]
      by_cases h : seedName g.1 ∈ ex
      · exact Or.inl (if_pos h)
      · exact Or.inr (if_neg h)
    rcases List.mem_cons.mp hf with rfl | hf'
    · have h1 : getContent (upsertSeed ex s f) (seedName f.1) = some f.2 := by
        unfold upsertSeed
        by_cases h : seedName f.1 ∈ ex
        · rw [if_pos h]
          exact getContent_updateFirst_self s _ f.2 (hsub h)
        · rw [if_neg h]
          exact getContent_append_self s _ _ (hnew f (List.mem_cons_self _ _) h) rfl
      have h2 : ∀ g' ∈ gs, seedName g'.1 ≠ seedName f.1 := by
        intro g' hg' he
        have hx : seedName f.1 ∉ gs.map (fun g0 => seedName g0.1) := (List.nodup_cons.mp hnd).1
        exact hx (he ▸ List.mem_map.mpr ⟨g', hg', rfl⟩)
      rw [getContent_seedFold_ne ex gs (seedName f.1) (upsertSeed ex s f) h2]
      exact h1
    · refine ih (upsertSeed ex s g) (List.nodup_cons.mp hnd).2 hf' ?_ ?_
      · intro g' hg' hno
        have hold : seedName g'.1 ∉ storeNames s := hnew g' (List.mem_cons_of_mem _ hg') hno
        have hne : seedName g'.1 ≠ seedName g.1 := by
          intro he
          have hx : seedName g.1 ∉ gs.map (fun g0 => seedName g0.1) := (List.nodup_cons.mp hnd).1
          exact hx (he ▸ List.mem_map.mpr ⟨g', hg', rfl⟩)
        rcases hgnames with h | h
        · rw [h]
          exact hold
        · rw [h]
          intro hmem
          rcases List.mem_append.mp hmem with hmem | hmem
          · exact hold hmem
          · exact hne (List.mem_singleton.mp hmem)
      · intro a ha
        rcases hgnames with h | h
        · rw [h]
          exact hsub ha
        · rw [h]
          exact List.mem_append_left _ (hsub ha)

theorem decDigits_lt_ten (fuel : Nat) : ∀ (n : Nat), ∀ d ∈ decDigits fuel n, d < 10 := by
  induction fuel with
  | zero =>
    intro n d hd
    cases hd
  | succ f ih =>
    intro n
    match n with
    | 0 =>
      intro d hd
      cases hd
    | n + 1 =>
      intro d hd
      rcases List.mem_append.mp hd with h | h
      · exact ih _ d h
      · rcases List.mem_singleton.mp h with rfl
        exact Nat.mod_lt _ (by omega)

/-- Value of a most-significant-first digit list. -/
def digitsVal (l : List Nat) : Nat := l.foldl (fun a d => a * 10 + d) 0

theorem digitsVal_append_single (l : List Nat) (d : Nat) :
    digitsVal (l ++ [d]) = digitsVal l * 10 + d := by
  simp [digitsVal, List.foldl_append]

theorem digitsVal_decDigits (fuel : Nat) : ∀ (n : Nat), n ≤ fuel →
    digitsVal (decDigits fuel n) = n := by
  induction fuel with
  | zero =>
    intro n h
    have : n = 0 := Nat.le_zero.mp h
    subst this
    rfl
  | succ f ih =>
    intro n h
    match n with
    | 0 => rfl
    | n + 1 =>
      have hdiv : (n + 1) / 10 ≤ f := by
        have := Nat.div_lt_self (Nat.succ_pos n) (by omega : 1 < 10)
        omega
      show digitsVal (decDigits f ((n + 1) / 10) ++ [(n + 1) % 10]) = n + 1
      rw [digitsVal_append_single, ih _ hdiv]
      omega

theorem digitChar_inj_lt : ∀ a, a < 10 → ∀ b, b < 10 →
    digitChar a = digitChar b → a = b := by decide

theorem map_digitChar_inj (l1 : List Nat) : ∀ (l2 : List Nat),
    (∀ d ∈ l1, d < 10) → (∀ d ∈ l2, d < 10) →
    l1.map digitChar = l2.map digitChar → l1 = l2 := by
  induction l1 with
  | nil =>
    intro l2 _ _ h
    cases l2 with
    | nil => rfl
    | cons b t2 => simp at h
  | cons a t ih =>
    intro l2 h1 h2 h
    cases l2 with
    | nil => simp at h
    | cons b t2 =>
      simp only [List.map_cons, List.cons.injEq] at h
      have hab : a = b :=
        digitChar_inj_lt a (h1 a (List.mem_cons_self _ _)) b (h2 b (List.mem_cons_self _ _)) h.1
      subst hab
      rw [ih t2 (fun d hd => h1 d (List.mem_cons_of_mem _ hd))
        (fun d hd => h2 d (List.mem_cons_of_mem _ hd)) h.2]

theorem decimalStr_inj (n m : Nat) (h : decimalStr n = decimalStr m) : n = m := by
  unfold decimalStr at h
  by_cases hn : n = 0 <;> by_cases hm : m = 0
  · omega
  · rw [if_pos hn, if_neg hm] at h
    have hd : ([0] : List Nat).map digitChar = (decDigits m m).map digitChar :=
      congrArg String.data h
    have hlist : ([0] : List Nat) = decDigits m m :=
      map_digitChar_inj [0] (decDigits m m) (by decide) (decDigits_lt_ten m m) hd
    have := digitsVal_decDigits m m (Nat.le_refl m)
    rw [← hlist] at this
    exact absurd this.symm hm
  · rw [if_neg hn, if_pos hm] at h
    have hd : (decDigits n n).map digitChar = ([0] : List Nat).map digitChar :=
      congrArg String.data h
    have hlist : decDigits n n = ([0] : List Nat) :=
      map_digitChar_inj (decDigits n n) [0] (decDigits_lt_ten n n) (by decide) hd
    have := digitsVal_decDigits n n (Nat.le_refl n)
    rw [hlist] at this
    exact absurd this.symm hn
  · rw [if_neg hn, if_neg hm] at h
    have hd : (decDigits n n).map digitChar = (decDigits m m).map digitChar :=
      congrArg String.data h
    have hlist := map_digitChar_inj (decDigits n n) (decDigits m m)
      (decDigits_lt_ten n n) (decDigits_lt_ten m m) hd
    have h1 := digitsVal_decDigits n n (Nat.le_refl n)
    have h2 := digitsVal_decDigits m m (Nat.le_refl m)
    rw [← h1, ← h2, hlist]

theorem promptName_inj (i j : Nat) (h : promptName i = promptName j) : i = j := by
  have hd : ("prompt_".data ++ (decimalStr i).data) ++ ".txt".data
      = ("prompt_".data ++ (decimalStr j).data) ++ ".txt".data :=
    congrArg String.data h
  have h1 : (decimalStr i).data = (decimalStr j).data :=
    List.append_cancel_left (List.append_cancel_right hd)
  exact decimalStr_inj i j (congrArg String.mk h1)

/-- The files one generation run writes: `prompt_<idx>.txt` holding the
rendered text of each row, indices counting up from `idx`. -/
def expectedFiles (templateStr : String) (header : List String) :
    Nat → List (List String) → List (String × String)
  | _, [] => []
  | idx, row :: rows =>
    (promptName idx, jinjaRender templateStr (clean_row (dictReaderRecord header row)))
      :: expectedFiles templateStr header (idx + 1) rows

theorem dictInsert_fresh {α β : Type} [DecidableEq α] (d : List (α × β)) (k : α) (v : β)
    (h : k ∉ d.map Prod.fst) : dictInsert d k v = d ++ [(k, v)] := by
  unfold dictInsert
  rw [if_neg]
  intro hc
  rcases List.any_eq_true.mp hc with ⟨q, hq, hqk⟩
  exact h (List.mem_map.mpr ⟨q, hq, by simpa using hqk⟩)

theorem renderGo_spec (templateStr : String) (header : List String)
    (rows : List (List String)) : ∀ (idx : Nat) (out : List (String × String)),
    (∀ k ∈ out.map Prod.fst, ∃ j, j < idx ∧ k = promptName j) →
    renderGo templateStr header idx rows out =
      (expectedFiles templateStr header idx rows,
        out ++ expectedFiles templateStr header idx rows) := by
  induction rows with
  | nil =>
    intro idx out _
    simp [renderGo, expectedFiles]
  | cons row rows ih =>
    intro idx out hout
    have hfresh : promptName idx ∉ out.map Prod.fst := by
      intro hmem
      rcases hout _ hmem with ⟨j, hj, heq⟩
      have := promptName_inj idx j heq
      omega
    have hout' : ∀ k ∈ (out ++
        [(promptName idx,
          jinjaRender templateStr (clean_row (dictReaderRecord header row)))]).map Prod.fst,
        ∃ j, j < idx + 1 ∧ k = promptName j := by
      intro k hk
      rw [List.map_append] at hk
      rcases List.mem_append.mp hk with hk | hk
      · rcases hout k hk with ⟨j, hj, heq⟩
        exact ⟨j, by omega, heq⟩
      · rcases List.mem_singleton.mp hk with rfl
        exact ⟨idx, by omega, rfl⟩
    simp only [renderGo]
    rw [dictInsert_fresh _ _ _ hfresh, ih (idx + 1) _ hout']
    simp [expectedFiles]

/-! ## Claim theorems -/

/-- C1: with template content `"Hello {{ Name }}, you are {{ Age }}"`
and an uploaded data file with header `Name,Age` and the single data
row `Alice,30`, the generation run (renderer followed by archiver)
produces, from any prior state, exactly the one output entry
`prompt_1.txt` with text `"Hello Alice, you are 30"`, and the archive
holds exactly that one entry with that content. -/
theorem end_to_end_single_row (st : AppState) :
    (generate st "Hello {{ Name }}, you are {{ Age }}"
        ⟨["Name", "Age"], [["Alice", "30"]]⟩).results
      = some [("prompt_1.txt", "Hello Alice, you are 30")] ∧
    (generate st "Hello {{ Name }}, you are {{ Age }}"
        ⟨["Name", "Age"], [["Alice", "30"]]⟩).outDir
      = [("prompt_1.txt", "Hello Alice, you are 30")] ∧
    (generate st "Hello {{ Name }}, you are {{ Age }}"
        ⟨["Name", "Age"], [["Alice", "30"]]⟩).zipArchive
      = some [("prompt_1.txt", "Hello Alice, you are 30")] :=
  ⟨rfl, rfl, rfl⟩

/-- C2 counterexample: the two distinct seed filenames `ab.txt` and
`a.txtb.txt` both derive the template name `ab` (the code deletes every
`.txt` occurrence), so on a store already holding a template `ab`,
seeding twice leaves a single record whose content is the second
file's text — no stored template carries the first file's latest
content `x`, although the claim promises one stored template per
distinct seed filename with that file's content. -/
theorem seeding_name_collision_cex :
    seed (seed [⟨"ab", "old"⟩] [("ab.txt", "x"), ("a.txtb.txt", "y")])
        [("ab.txt", "x"), ("a.txtb.txt", "y")] = [⟨"ab", "y"⟩] ∧
    ("ab.txt", "x") ∈ seedFiles [("ab.txt", "x"), ("a.txtb.txt", "y")] ∧
    ("a.txtb.txt", "y") ∈ seedFiles [("ab.txt", "x"), ("a.txtb.txt", "y")] ∧
    ¬ ∃ t ∈ seed (seed [⟨"ab", "old"⟩] [("ab.txt", "x"), ("a.txtb.txt", "y")])
        [("ab.txt", "x"), ("a.txtb.txt", "y")], t.content = "x" :=
  ⟨by decide, by decide, by decide, by decide⟩

/-- C2 (amended): for every store with unique names and every seed
directory whose `.txt` files derive pairwise distinct template names,
running the seeding step twice in a row commits both times, and
afterwards each seed file is represented by exactly one stored
template bearing its derived name and its latest content — even if the
store previously held different content under that name (in-store
edits are discarded). -/
theorem seeding_idempotent_overriding (store : List PromptTemplate)
    (dir : List (String × String)) (f : String × String) (t : PromptTemplate)
    (hnd : (storeNames store).Nodup)
    (hdn : ((seedFiles dir).map (fun g => seedName g.1)).Nodup)
    (hf : f ∈ seedFiles dir)
    (ht : t ∈ seed (seed store dir) dir)
    (hname : t.name = seedName f.1) :
    ((seed (seed store dir) dir).filter (fun u => u.name = seedName f.1)).length = 1 ∧
    t.content = f.2 ∧
    seedCommit store dir = .ok (seed store dir) ∧
    seedCommit (seed store dir) dir = .ok (seed (seed store dir) dir) := by
  have hset1 : ∀ a, countName (storeNames (seed store dir)) a =
      countName (storeNames store) a +
        if a ∈ storeNames store then 0
        else countName ((seedFiles dir).map (fun g => seedName g.1)) a :=
    fun a => countName_seedFold (storeNames store) (seedFiles dir) store a
  have hnd1 : (storeNames (seed store dir)).Nodup := by
    rw [nodup_iff_countName]
    intro a
    rw [hset1 a]
    by_cases hmem : a ∈ storeNames store
    · have h1 := (nodup_iff_countName _).mp hnd a
      rw [if_pos hmem]
      omega
    · have h0 : countName (storeNames store) a = 0 := (countName_eq_zero _ _).mpr hmem
      have h1 := (nodup_iff_countName _).mp hdn a
      rw [if_neg hmem]
      omega
  have hcount1 : countName (storeNames (seed store dir)) (seedName f.1) = 1 := by
    rw [hset1 _]
    by_cases hmem : seedName f.1 ∈ storeNames store
    · rw [if_pos hmem, countName_eq_one_of_nodup _ _ hnd hmem]
    · have h0 : countName (storeNames store) (seedName f.1) = 0 :=
        (countName_eq_zero _ _).mpr hmem
      have hm : seedName f.1 ∈ (seedFiles dir).map (fun g => seedName g.1) :=
        List.mem_map.mpr ⟨f, hf, rfl⟩
      rw [if_neg hmem, h0, countName_eq_one_of_nodup _ _ hdn hm]
  have hmem1 : seedName f.1 ∈ storeNames (seed store dir) := by
    by_contra hc
    have h0 := (countName_eq_zero (storeNames (seed store dir)) (seedName f.1)).mpr hc
    omega
  have hset2 : ∀ a, countName (storeNames (seed (seed store dir) dir)) a =
      countName (storeNames (seed store dir)) a +
        if a ∈ storeNames (seed store dir) then 0
        else countName ((seedFiles dir).map (fun g => seedName g.1)) a :=
    fun a => countName_seedFold (storeNames (seed store dir)) (seedFiles dir) (seed store dir) a
  have hcount2 : countName (storeNames (seed (seed store dir) dir)) (seedName f.1) = 1 := by
    rw [hset2 _, if_pos hmem1, hcount1]
  have hnd2 : (storeNames (seed (seed store dir) dir)).Nodup := by
    rw [nodup_iff_countName]
    intro a
    rw [hset2 a]
    by_cases hmem : a ∈ storeNames (seed store dir)
    · have h1 := (nodup_iff_countName _).mp hnd1 a
      rw [if_pos hmem]
      omega
    · have h0 : countName (storeNames (seed store dir)) a = 0 :=
        (countName_eq_zero _ _).mpr hmem
      have h1 := (nodup_iff_countName _).mp hdn a
      rw [if_neg hmem]
      omega
  have hcontent : getContent (seed (seed store dir) dir) (seedName f.1) = some f.2 :=
    getContent_seedFold (storeNames (seed store dir)) (seedFiles dir) f
      (seed store dir) hdn hf (fun _ _ hno hmem => hno hmem) (fun _ ha => ha)
  have hfilterlen : ((seed (seed store dir) dir).filter
      (fun u => u.name = seedName f.1)).length = 1 := by
    rw [← countName_storeNames_filter]
    exact hcount2
  refine ⟨hfilterlen, ?_, ?_, ?_⟩
  · obtain ⟨w, hw, hwc⟩ : ∃ w, findByName (seed (seed store dir) dir) (seedName f.1) = some w ∧
        w.content = f.2 := by
      unfold getContent at hcontent
      cases hfind : findByName (seed (seed store dir) dir) (seedName f.1) with
      | none =>
        rw [hfind] at hcontent
        cases hcontent
      | some w =>
        rw [hfind] at hcontent
        exact ⟨w, rfl, by simpa using hcontent⟩
    obtain ⟨hwmem, hwname⟩ := findByName_some _ _ w hw
    obtain ⟨u, hu⟩ := List.length_eq_one.mp hfilterlen
    have htf : t ∈ (seed (seed store dir) dir).filter (fun u => u.name = seedName f.1) :=
      List.mem_filter.mpr ⟨ht, by simpa using hname⟩
    have hwf : w ∈ (seed (seed store dir) dir).filter (fun u => u.name = seedName f.1) :=
      List.mem_filter.mpr ⟨hwmem, by simpa using hwname⟩
    rw [hu] at htf hwf
    rw [List.mem_singleton.mp htf, ← List.mem_singleton.mp hwf]
    exact hwc
  · simp only [seedCommit]
    rw [if_pos ((namesNodupB_iff _).mpr hnd1)]
  · simp only [seedCommit]
    rw [if_pos ((namesNodupB_iff _).mpr hnd2)]

theorem seeding_idempotent_overriding_witness :
    (storeNames [(⟨"a", "old"⟩ : PromptTemplate)]).Nodup ∧
    ((seedFiles [("a.txt", "new")]).map (fun g => seedName g.1)).Nodup ∧
    ("a.txt", "new") ∈ seedFiles [("a.txt", "new")] ∧
    (⟨"a", "new"⟩ : PromptTemplate) ∈
      seed (seed [⟨"a", "old"⟩] [("a.txt", "new")]) [("a.txt", "new")] ∧
    (((seed (seed [⟨"a", "old"⟩] [("a.txt", "new")]) [("a.txt", "new")]).filter
        (fun u => u.name = seedName "a.txt")).length = 1 ∧
      (⟨"a", "new"⟩ : PromptTemplate).content = "new" ∧
      seedCommit [⟨"a", "old"⟩] [("a.txt", "new")]
        = .ok (seed [⟨"a", "old"⟩] [("a.txt", "new")]) ∧
      seedCommit (seed [⟨"a", "old"⟩] [("a.txt", "new")]) [("a.txt", "new")]
        = .ok (seed (seed [⟨"a", "old"⟩] [("a.txt", "new")]) [("a.txt", "new")])) :=
  ⟨by decide, by decide, by decide, by decide,
    seeding_idempotent_overriding [⟨"a", "old"⟩] [("a.txt", "new")] ("a.txt", "new")
      ⟨"a", "new"⟩ (by decide) (by decide) (by decide) (by decide) (by decide)⟩

theorem nodup_append_singleton (l : List String) (n : String)
    (hl : l.Nodup) (hn : n ∉ l) : (l ++ [n]).Nodup := by
  rw [nodup_iff_countName]
  intro a
  rw [countName_append]
  by_cases h : a = n
  · subst h
    have h0 : countName l a = 0 := (countName_eq_zero _ _).mpr hn
    simp [countName, h0]
  · have h1 := (nodup_iff_countName l).mp hl a
    have hna : ¬(n = a) := fun he => h he.symm
    simp [countName, hna]
    omega

theorem storeNames_removeFirst_sublist (s : List PromptTemplate) (n : String) :
    (storeNames (removeFirst s n)).Sublist (storeNames s) := by
  induction s with
  | nil => exact List.Sublist.refl _
  | cons t ts ih =>
    by_cases h : t.name = n
    · simp only [removeFirst, if_pos h]
      exact List.Sublist.cons _ (List.Sublist.refl _)
    · simp only [removeFirst, if_neg h]
      exact List.Sublist.cons₂ _ ih

/-- C6: in every reachable store state the template names are unique:
a store with pairwise distinct names keeps pairwise distinct names
under the create handler (its duplicate check), the edit handler (a
successful update only rewrites content), the delete handler (it only
removes a record), and a committed seeding pass (the `UNIQUE`
constraint admits only duplicate-free commits); the initial store, the
empty table, trivially satisfies the invariant. -/
theorem template_names_unique (store : List PromptTemplate)
    (n c ec : String) (ch : Option String)
    (p : List PromptTemplate × UIMsg) (dir : List (String × String))
    (s2 : List PromptTemplate)
    (hnd : (storeNames store).Nodup)
    (hedit : editMode store ch ec = .ok p)
    (hseed : seedCommit store dir = .ok s2) :
    (storeNames (createMode store n c).1).Nodup ∧
    (storeNames p.1).Nodup ∧
    (storeNames (deleteMode store ch).1).Nodup ∧
    (storeNames s2).Nodup := by
  refine ⟨?_, ?_, ?_, ?_⟩
  · unfold createMode
    by_cases hg : n ≠ "" ∧ c ≠ ""
    · rw [if_pos hg]
      by_cases hfind : (findByName store n).isSome
      · rw [if_pos hfind]
        exact hnd
      · rw [if_neg hfind]
        have hnot : n ∉ storeNames store :=
          fun hm => hfind ((findByName_isSome_iff store n).mpr hm)
        have hs : storeNames (store ++ [⟨n, c⟩]) = storeNames store ++ [n] := by
          simp [storeNames]
        show (storeNames (store ++ [⟨n, c⟩])).Nodup
        rw [hs]
        exact nodup_append_singleton _ _ hnd hnot
    · rw [if_neg hg]
      exact hnd
  · cases ch with
    | none => exact Except.noConfusion hedit
    | some m =>
      have hedit' : (match findByName store m with
          | none => Except.error PyExn.attributeErr
          | some _ => Except.ok (updateFirst store m ec, UIMsg.updatedOk)) = Except.ok p :=
        hedit
      cases hfind : findByName store m with
      | none =>
        rw [hfind] at hedit'
        exact Except.noConfusion hedit'
      | some u =>
        rw [hfind] at hedit'
        have hp : (updateFirst store m ec, UIMsg.updatedOk) = p := by
          injection hedit' with h
        rw [← hp]
        show (storeNames (updateFirst store m ec)).Nodup
        rw [storeNames_updateFirst]
        exact hnd
  · cases ch with
    | none => exact hnd
    | some m =>
      have hd : deleteMode store (some m) = match findByName store m with
          | some t => (removeFirst store t.name, UIMsg.deletedOk)
          | none => (store, UIMsg.noAction) := rfl
      rw [hd]
      cases hfind : findByName store m with
      | none => exact hnd
      | some u =>
        show (storeNames (removeFirst store u.name)).Nodup
        exact List.Nodup.sublist (storeNames_removeFirst_sublist store u.name) hnd
  · simp only [seedCommit] at hseed
    by_cases hb : namesNodupB (storeNames (seed store dir)) = true
    · rw [if_pos hb] at hseed
      have h2 : seed store dir = s2 := by
        injection hseed with h
      rw [← h2]
      exact (namesNodupB_iff _).mp hb
    · rw [if_neg hb] at hseed
      exact Except.noConfusion hseed

theorem template_names_unique_witness :
    (storeNames [(⟨"a", "x"⟩ : PromptTemplate)]).Nodup ∧
    editMode [⟨"a", "x"⟩] (some "a") "z" = .ok ([⟨"a", "z"⟩], .updatedOk) ∧
    seedCommit [⟨"a", "x"⟩] [("c.txt", "w")] = .ok [⟨"a", "x"⟩, ⟨"c", "w"⟩] ∧
    ((storeNames (createMode [⟨"a", "x"⟩] "b" "y").1).Nodup ∧
      (storeNames ([(⟨"a", "z"⟩ : PromptTemplate)], UIMsg.updatedOk).1).Nodup ∧
      (storeNames (deleteMode [⟨"a", "x"⟩] (some "a")).1).Nodup ∧
      (storeNames [(⟨"a", "x"⟩ : PromptTemplate), ⟨"c", "w"⟩]).Nodup) :=
  ⟨by decide, rfl, rfl,
    template_names_unique [⟨"a", "x"⟩] "b" "y" "z" (some "a")
      ([⟨"a", "z"⟩], .updatedOk) [("c.txt", "w")] [⟨"a", "x"⟩, ⟨"c", "w"⟩]
      (by decide) rfl rfl⟩

/-- C3: invoking create (the Save Template click with both fields
filled in) with a name already stored is answered with the
duplicate-name error message — no crash — and the store is returned
unchanged: the existing record is not altered and nothing is
inserted. -/
theorem create_duplicate_rejected (store : List PromptTemplate)
    (n c : String) (hdup : n ∈ storeNames store) (hn : n ≠ "") (hc : c ≠ "") :
    createMode store n c = (store, .errorTemplateExists) := by
  unfold createMode
  rw [if_pos ⟨hn, hc⟩, if_pos ((findByName_isSome_iff store n).mpr hdup)]

theorem create_duplicate_rejected_witness :
    ("a" : String) ∈ storeNames [⟨"a", "x"⟩] ∧ ("a" : String) ≠ "" ∧ ("y" : String) ≠ "" ∧
    createMode [⟨"a", "x"⟩] "a" "y" = ([⟨"a", "x"⟩], .errorTemplateExists) :=
  ⟨by decide, by decide, by decide,
    create_duplicate_rejected [⟨"a", "x"⟩] "a" "y" (by decide) (by decide) (by decide)⟩

/-- C4 counterexample: the claim says update and delete on a missing
name fail with `NotFoundError`.  On the store `[⟨"a", "x"⟩]` and the
missing name `"ghost"`, the Edit handler instead crashes with an
uncaught `AttributeError` (dereferencing the `None` lookup result at
src/app.py line 103), and the Delete handler completes silently,
reporting nothing at all — in particular not a not-found error. -/
theorem missing_name_no_notfound_cex :
    editMode [⟨"a", "x"⟩] (some "ghost") "y" = .error .attributeErr ∧
    deleteMode [⟨"a", "x"⟩] (some "ghost") = ([⟨"a", "x"⟩], .noAction) ∧
    UIMsg.noAction ≠ UIMsg.errorNotFound :=
  ⟨rfl, by decide, by decide⟩

/-- C4 (amended): update on a name with no stored record raises an
uncaught `AttributeError` — a crash, not a `NotFoundError` — before
any modification, and delete on such a name silently does nothing:
in both cases the store is left unchanged, and no `NotFoundError` is
ever produced. -/
theorem missing_name_edit_delete_behavior (store : List PromptTemplate)
    (n ec : String) (h : findByName store n = none) :
    editMode store (some n) ec = .error .attributeErr ∧
    deleteMode store (some n) = (store, .noAction) := by
  constructor
  · simp [editMode, h]
  · simp [deleteMode, h]

theorem missing_name_edit_delete_behavior_witness :
    findByName [⟨"a", "x"⟩] "ghost" = none ∧
    (editMode [⟨"a", "x"⟩] (some "ghost") "y" = .error .attributeErr ∧
      deleteMode [⟨"a", "x"⟩] (some "ghost") = ([⟨"a", "x"⟩], .noAction)) :=
  ⟨by decide, missing_name_edit_delete_behavior [⟨"a", "x"⟩] "ghost" "y" (by decide)⟩

/-- C5 counterexample: the claim says every key of the output mapping
has leading/trailing whitespace removed.  On the record whose only key
is `"﻿ Name"` (byte-order mark, space, `Name`), the code strips
first and removes the byte-order mark afterwards, so the returned key
is `" Name"` — it still carries leading whitespace (stripping it again
would change it), and the output is not the claimed fully-cleaned
mapping. -/
theorem clean_row_bom_shield_cex :
    clean_row [(.str "﻿ Name", .str "x")] = [(" Name", "x")] ∧
    pyStrip " Name" ≠ " Name" ∧
    clean_row [(.str "﻿ Name", .str "x")] ≠ [("Name", "x")] :=
  ⟨by decide, by decide, by decide⟩

/-- C5 (amended): `clean_row` is a pure function of its input record;
every entry of the output comes from a string-keyed input entry, with
the key transformed by stripping leading/trailing whitespace first and
deleting byte-order-mark characters second (whitespace shielded by a
byte-order mark survives), and the value stripped if it is text and
replaced by the empty string otherwise; non-string keys are dropped;
every string-keyed input entry contributes its cleaned key; and on the
record `{" Name﻿ ": " Alice "}` the output is exactly
`{"Name": "Alice"}`. -/
theorem clean_row_sanitizes (row : List (PyVal × PyVal)) (kv : String × String)
    (s : String) (v₀ : PyVal)
    (hkv : kv ∈ clean_row row) (hsv : (PyVal.str s, v₀) ∈ row) :
    (∃ s' v', (PyVal.str s', v') ∈ row ∧ kv.1 = cleanKey s' ∧ kv.2 = cleanVal v') ∧
    cleanKey s ∈ (clean_row row).map Prod.fst ∧
    clean_row [(.str " Name﻿ ", .str " Alice ")] = [("Name", "Alice")] := by
  refine ⟨?_, clean_row_complete row [] s v₀ hsv, by decide⟩
  rcases foldl_cleanStep_sound row [] kv hkv with h | ⟨s', v', hm, he⟩
  · cases h
  · exact ⟨s', v', hm, by rw [he], by rw [he]⟩

theorem clean_row_sanitizes_witness :
    (("Name", "Alice") : String × String) ∈ clean_row [(.str " Name﻿ ", .str " Alice ")] ∧
    (PyVal.str " Name﻿ ", PyVal.str " Alice ") ∈
      ([(.str " Name﻿ ", .str " Alice ")] : List (PyVal × PyVal)) ∧
    (∃ s' v', (PyVal.str s', v') ∈ ([(.str " Name﻿ ", .str " Alice ")] : List (PyVal × PyVal)) ∧
      ("Name" : String) = cleanKey s' ∧ ("Alice" : String) = cleanVal v') :=
  ⟨by decide, by decide,
    (clean_row_sanitizes [(.str " Name﻿ ", .str " Alice ")] ("Name", "Alice")
      " Name﻿ " (.str " Alice ") (by decide) (by decide)).1⟩

/-- C8 counterexample: the claim says the template name is the
filename with the extension stripped, the rest left intact.  The seed
file `a.txtb.txt` has the recognized extension, yet the code's
`file.replace(".txt", "")` also deletes the interior `.txt`, yielding
the name `ab` instead of the claimed `a.txtb`. -/
theorem seed_name_replace_all_cex :
    endsWithTxt "a.txtb.txt" = true ∧
    seedName "a.txtb.txt" = "ab" ∧
    ("ab" : String) ≠ "a.txtb" :=
  ⟨by decide, by decide, by decide⟩

/-- C8 (amended): the seeder derives the template name by deleting
every occurrence of the substring `.txt` from the filename; whenever
`.txt` occurs in the filename only as its final extension, this equals
the filename with the extension stripped and the rest left intact. -/
theorem seed_name_extension_stripped (stem : String)
    (h : hasTxtOcc stem.data = false) :
    seedName (stem ++ ".txt") = stem := by
  unfold seedName
  rw [show (stem ++ ".txt").data = stem.data ++ ['.', 't', 'x', 't'] from rfl,
    stripTxt_append_ext stem.data h]

theorem seed_name_extension_stripped_witness :
    hasTxtOcc "report-b".data = false ∧ seedName ("report-b" ++ ".txt") = "report-b" :=
  ⟨by decide, seed_name_extension_stripped "report-b" (by decide)⟩

/-- C7: after two successive generation runs, the output directory
holds exactly the files produced by the second run — its sequentially
named rendered files — and nothing of the first run survives: the
handler clears the directory before rendering, so the double-run
directory equals the single-run directory; the uploaded file is staged
as well. -/
theorem generation_replaces_output (st : AppState) (t1 : String) (c1 : CsvFile)
    (t2 : String) (c2 : CsvFile) :
    (generate (generate st t1 c1) t2 c2).outDir
      = expectedFiles t2 c2.header 1 c2.rows ∧
    (generate (generate st t1 c1) t2 c2).outDir = (generate st t2 c2).outDir ∧
    (generate (generate st t1 c1) t2 c2).uploadedCsv = some c2 := by
  have hsingle : ∀ s : AppState, (generate s t2 c2).outDir
      = expectedFiles t2 c2.header 1 c2.rows := by
    intro s
    show (renderGo t2 c2.header 1 c2.rows []).2 = _
    rw [renderGo_spec t2 c2.header c2.rows 1 [] (by simp)]
    simp
  exact ⟨hsingle _, (hsingle _).trans (hsingle st).symm, rfl⟩

/-- C9: the archiver builds, from any application state, an archive
holding exactly the files currently in the (flat) output directory,
each under its bare name with its content, and the result does not
depend on any previously existing archive — it is overwritten. -/
theorem archive_packs_output_dir (st : AppState) :
    ∃ entries, (zip_output st).zipArchive = some entries ∧
      (∀ e, e ∈ entries ↔ e ∈ st.outDir) ∧
      ∀ a, zip_output { st with zipArchive := a } = zip_output st := by
  refine ⟨_, rfl, ?_, fun a => rfl⟩
  intro e
  constructor
  · intro he
    rcases List.mem_map.mp he with ⟨q, hq, rfl⟩
    exact hq
  · intro he
    exact List.mem_map.mpr ⟨e, he, rfl⟩

/-- C10: on an uploaded data file consisting of only a header row and
no data rows, the renderer returns the empty sequence, the cleared
output directory stays empty (no file is written), and the archive
built afterwards has zero entries. -/
theorem header_only_empty_outputs (st : AppState) (templateStr : String)
    (header : List String) :
    (generate st templateStr ⟨header, []⟩).results = some [] ∧
    (generate st templateStr ⟨header, []⟩).outDir = [] ∧
    (generate st templateStr ⟨header, []⟩).zipArchive = some [] :=
  ⟨rfl, rfl, rfl⟩

end PromptStream
